import Mathlib

/-!
# Verification of the seller-apis stock/price synchronization scripts

Shallow embedding of the two Python modules `seller.py` (Ozon marketplace)
and `market.py` (Yandex.Market marketplace) from the `seller-apis`
repository, together with proofs about the claims of its specification.

Modelling conventions:
* Python strings are Lean `String` (character-level operations go through
  `String.toList`).
* A feed row (an entry of `watch_remnants`) is a `Watch` record holding the
  three fields the code reads: "Код" (product code), "Количество"
  (quantity string) and "Цена" (price string).
* Python `int(s)` on a string is modelled by `pyInt?` (an optional sign
  followed by decimal digits); a `none` result models the `ValueError` the
  call would raise, and functions whose Python counterpart can raise on
  that path return `Option`.
* Network calls are abstracted into explicit parameters (the responses) or
  into recorded call traces; mutation of the `offer_ids` list performed by
  `create_stocks` is modelled by returning the final list alongside the
  result (explicit state passing).
-/

/-- A row of the downloaded stock feed, with the three fields the code
reads: `kod` = "Код", `kolichestvo` = "Количество", `tsena` = "Цена". -/
structure Watch where
  kod : String
  kolichestvo : String
  tsena : String
deriving Repr, DecidableEq

/-- The value of a string of decimal digits read left to right. -/
def digitsToNat (l : List Char) : Nat :=
  l.foldl (fun n c => n * 10 + (c.toNat - '0'.toNat)) 0

/-- Python `int(s)` on a string: an optional sign followed by at least
one decimal digit denotes the corresponding integer; anything else raises
`ValueError`, modelled by `none`.  (Python also tolerates surrounding
whitespace and underscore separators; none of the claims concern such
inputs.) -/
def pyInt? (s : String) : Option Int :=
  match s.toList with
  | [] => none
  | '-' :: rest =>
      if rest ≠ [] ∧ rest.all Char.isDigit then some (-(digitsToNat rest : Int)) else none
  | '+' :: rest =>
      if rest ≠ [] ∧ rest.all Char.isDigit then some (digitsToNat rest : Int) else none
  | l =>
      if l.all Char.isDigit then some (digitsToNat l : Int) else none

/-- The quantity mapping shared by `create_stocks` in both files
(seller.py lines 276-282, market.py lines 233-239): `">10"` becomes 100,
`"1"` becomes 0, any other string is passed to Python `int` (modelled by
`pyInt?`; `none` models the `ValueError`). -/
def stockOfCount (count : String) : Option Int :=
  if count = ">10" then some 100
  else if count = "1" then some 0
  else pyInt? count

/-- Python's `str.split(sep)` for a one-character separator, on the
character list of the string.  `split` always returns at least one piece,
and a separator character opens a new (initially empty) piece. -/
def pySplit (sep : Char) : List Char → List (List Char)
  | [] => [[]]
  | c :: cs =>
    if c = sep then [] :: pySplit sep cs
    else
      match pySplit sep cs with
      | [] => [[c]]
      | piece :: rest => (c :: piece) :: rest

/-- seller.py line 364: `re.sub("[^0-9]", "", price.split(".")[0])` —
take the part before the first `.` and keep only the decimal digits. -/
def price_conversion (price : String) : String :=
  String.mk (((pySplit '.' price.toList).headD []).filter Char.isDigit)

/-- The specification's wording of the price normalization rule: "strip
every non-digit character from the value preceding any decimal point".
Stated independently of `pySplit`, via `takeWhile`. -/
def price_conversionSpec (price : String) : String :=
  String.mk ((price.toList.takeWhile (fun c => c ≠ '.')).filter Char.isDigit)

/-- seller.py lines 396-397: `for i in range(0, len(lst), n): yield
lst[i : i + n]` — successive slices of `n` elements.  For `n = 0` the
Python `range` raises `ValueError`; we return `[]` on that degenerate
input (no claim concerns it). -/
def divide : List α → Nat → List (List α)
  | [], _ => []
  | _ :: _, 0 => []
  | a :: l, n + 1 => (a :: l).take (n + 1) :: divide (l.drop n) (n + 1)
termination_by lst _ => lst.length
decreasing_by
  simp only [List.length_drop, List.length_cons]
  omega

/-- The exceptions distinguished by the `try/except` blocks of both
`main` functions: `requests.exceptions.ReadTimeout`,
`requests.exceptions.ConnectionError`, and every other `Exception`
(carrying its message). -/
inductive PyExc where
  | readTimeout : PyExc
  | connectionError : String → PyExc
  | other : String → PyExc
deriving Repr, DecidableEq

namespace Seller

/-- One entry of the stock payload built by seller.py `create_stocks`
(line 283): `{"offer_id": ..., "stock": ...}`. -/
structure StockRec where
  offer_id : String
  stock : Int
deriving Repr, DecidableEq

/-- The matching loop of seller.py `create_stocks` (lines 274-284): for
each feed row whose code is in `offer_ids`, translate its quantity with
`stockOfCount` (a `none` models the `ValueError` of `int`), append the
record and remove the code from `offer_ids` (`list.remove` deletes the
first occurrence, i.e. `List.erase`).  Returns the records together with
the final state of the `offer_ids` list. -/
def stocksLoop : List Watch → List String → Option (List StockRec × List String)
  | [], ids => some ([], ids)
  | w :: ws, ids =>
    if w.kod ∈ ids then
      match stockOfCount w.kolichestvo with
      | none => none
      | some q =>
        match stocksLoop ws (ids.erase w.kod) with
        | none => none
        | some (recs, ids') => some ({ offer_id := w.kod, stock := q } :: recs, ids')
    else stocksLoop ws ids

/-- seller.py `create_stocks` (lines 273-288): the matching loop followed
by the zero-fill loop (lines 286-287) that appends a `stock = 0` record
for every id left in the (mutated) `offer_ids` list.  The second
component is the final state of the caller's `offer_ids` list. -/
def create_stocks (watch_remnants : List Watch) (offer_ids : List String) :
    Option (List StockRec × List String) :=
  match stocksLoop watch_remnants offer_ids with
  | none => none
  | some (recs, ids') =>
      some (recs ++ ids'.map (fun i => { offer_id := i, stock := 0 }), ids')

/-- One entry of the price payload built by seller.py `create_prices`
(lines 323-329). -/
structure PriceRec where
  auto_action_enabled : String
  currency_code : String
  offer_id : String
  old_price : String
  price : String
deriving Repr, DecidableEq

/-- seller.py `create_prices` (lines 320-331): one record per feed row
whose code is in `offer_ids` (the list is only read, never mutated
here). -/
def create_prices : List Watch → List String → List PriceRec
  | [], _ => []
  | w :: ws, ids =>
    if w.kod ∈ ids then
      { auto_action_enabled := "UNKNOWN", currency_code := "RUB",
        offer_id := w.kod, old_price := "0",
        price := price_conversion w.tsena } :: create_prices ws ids
    else create_prices ws ids

/-- Result of seller.py `upload_stocks` (lines 470-475): the batches
handed to `update_stocks` (in call order), and the returned pair
`(not_empty, stocks)`. -/
structure UploadStocksResult where
  batches : List (List StockRec)
  not_empty : List StockRec
  stocks : List StockRec
deriving Repr, DecidableEq

/-- seller.py `upload_stocks` (lines 470-475), with the offer ids
fetched by `get_offer_ids` passed in as `offer_ids`: build the stocks,
send them in batches of 100, and return the non-zero-stock sublist
together with the full list. -/
def upload_stocks (watch_remnants : List Watch) (offer_ids : List String) :
    Option UploadStocksResult :=
  match create_stocks watch_remnants offer_ids with
  | none => none
  | some (stocks, _) =>
      some { batches := divide stocks 100,
             not_empty := stocks.filter (fun stock => stock.stock ≠ 0),
             stocks := stocks }

/-- seller.py `upload_prices` (lines 431-435), with the fetched offer ids
passed in: build the prices and send them in batches of 1000.  Returns
the batches handed to `update_price` and the returned `prices` list. -/
def upload_prices (watch_remnants : List Watch) (offer_ids : List String) :
    List (List PriceRec) × List PriceRec :=
  (divide (create_prices watch_remnants offer_ids) 1000,
   create_prices watch_remnants offer_ids)

/-- Trace of the body of seller.py `main`'s try block (lines 508-517):
`create_stocks` mutates `offer_ids`, the stocks go out in batches of 100,
then `create_prices` is called with the same (now mutated) list and the
prices go out in batches of 900. -/
structure MainTrace where
  stockBatches : List (List StockRec)
  idsAfterStocks : List String
  prices : List PriceRec
  priceBatches : List (List PriceRec)
deriving Repr, DecidableEq

/-- seller.py `main` (lines 508-517), with the network reads
(`get_offer_ids`, `download_stock`) passed in as `offer_ids` and
`watch_remnants`. -/
def main_sync (watch_remnants : List Watch) (offer_ids : List String) :
    Option MainTrace :=
  match create_stocks watch_remnants offer_ids with
  | none => none
  | some (stocks, ids') =>
      some { stockBatches := divide stocks 100,
             idsAfterStocks := ids',
             prices := create_prices watch_remnants ids',
             priceBatches := divide (create_prices watch_remnants ids') 900 }

/-- seller.py `main` (lines 504-523): the whole synchronization work —
including `download_stock` — runs inside the `try` block, whose outcome
is the `work` parameter; each handler prints a message and `main`
returns normally. -/
def main_result (work : Except PyExc Unit) : Except PyExc (List String) :=
  match work with
  | .ok _ => .ok []
  | .error .readTimeout => .ok ["Превышено время ожидания..."]
  | .error (.connectionError msg) => .ok [msg ++ " Ошибка соединения"]
  | .error (.other msg) => .ok [msg ++ " ERROR_2"]

/-- An item of a product-list page returned by the Ozon API: the code
only reads `offer_id` (seller.py line 98). -/
structure Product where
  offer_id : String
deriving Repr, DecidableEq

/-- One page of `get_product_list` as consumed by `get_offer_ids`
(seller.py lines 90-93): the `items`, the reported `total`, and the
`last_id` cursor for the next page. -/
structure Page where
  items : List Product
  total : Nat
  last_id : String
deriving Repr, DecidableEq

/-- The `while True` loop of seller.py `get_offer_ids` (lines 89-95),
with the remote page source abstracted as `f : String → Page` (response
to a given `last_id` cursor) and an explicit fuel bound: extend the
accumulated list with the page's items, stop when the reported total
equals the number of items accumulated so far, otherwise continue from
the page's `last_id`.  `none` models non-termination within `fuel`
iterations. -/
def offersLoop (f : String → Page) : Nat → String → List Product → Option (List Product)
  | 0, _, _ => none
  | fuel + 1, last_id, acc =>
    let p := f last_id
    let acc2 := acc ++ p.items
    if p.total = acc2.length then some acc2
    else offersLoop f fuel p.last_id acc2

/-- seller.py `get_offer_ids` (lines 87-99): run the pagination loop from
the empty cursor and empty accumulator, then project each accumulated
product to its `offer_id`. -/
def get_offer_ids (f : String → Page) (fuel : Nat) : Option (List String) :=
  (offersLoop f fuel "" []).map (fun ps => ps.map (fun p => p.offer_id))

/-- The cursor the loop holds before its `n`-th iteration (iteration 0
starts from `last_id = ""`, seller.py line 87). -/
def cursorAt (f : String → Page) : Nat → String
  | 0 => ""
  | n + 1 => (f (cursorAt f n)).last_id

/-- The products accumulated after `n` iterations of the loop. -/
def accAt (f : String → Page) : Nat → List Product
  | 0 => []
  | n + 1 => accAt f n ++ (f (cursorAt f n)).items

/-- The stopping condition of the loop holds at iteration `n`: the total
reported by the page fetched at iteration `n` equals the number of items
accumulated after that page. -/
def stopsAt (f : String → Page) (n : Nat) : Prop :=
  (f (cursorAt f n)).total = (accAt f (n + 1)).length

end Seller

namespace Market

/-- One element of the `items` list of a stock record built by market.py
`create_stocks` (lines 244-250 and 260-266). -/
structure MItem where
  count : Int
  type : String
  updatedAt : String
deriving Repr, DecidableEq

/-- One entry of the stock payload built by market.py `create_stocks`
(lines 240-252): a SKU, a warehouse id and a singleton `items` list. -/
structure StockRec where
  sku : String
  warehouseId : String
  items : List MItem
deriving Repr, DecidableEq

/-- The matching loop of market.py `create_stocks` (lines 231-253): same
structure as the seller loop — quantity translated by `stockOfCount`,
matched code removed from `offer_ids` — but the record carries the
warehouse id and a timestamped singleton `items` list.  `date` is the
timestamp string computed once at line 230. -/
def stocksLoop (warehouse_id date : String) :
    List Watch → List String → Option (List StockRec × List String)
  | [], ids => some ([], ids)
  | w :: ws, ids =>
    if w.kod ∈ ids then
      match stockOfCount w.kolichestvo with
      | none => none
      | some q =>
        match stocksLoop warehouse_id date ws (ids.erase w.kod) with
        | none => none
        | some (recs, ids') =>
            some ({ sku := w.kod, warehouseId := warehouse_id,
                    items := [{ count := q, type := "FIT", updatedAt := date }] } :: recs,
                  ids')
    else stocksLoop warehouse_id date ws ids

/-- market.py `create_stocks` (lines 229-269): the matching loop followed
by the zero-fill loop (lines 255-268) appending a `count = 0` record for
every id left in the mutated `offer_ids` list.  The second component is
the final state of the caller's `offer_ids` list. -/
def create_stocks (watch_remnants : List Watch) (offer_ids : List String)
    (warehouse_id date : String) : Option (List StockRec × List String) :=
  match stocksLoop warehouse_id date watch_remnants offer_ids with
  | none => none
  | some (recs, ids') =>
      some (recs ++ ids'.map (fun i =>
              { sku := i, warehouseId := warehouse_id,
                items := [{ count := 0, type := "FIT", updatedAt := date }] }),
            ids')

/-- The `price` object of a price record built by market.py
`create_prices` (lines 317-322). -/
structure MPrice where
  value : Int
  currencyId : String
deriving Repr, DecidableEq

/-- One entry of the price payload built by market.py `create_prices`
(lines 314-325). -/
structure PriceRec where
  id : String
  price : MPrice
deriving Repr, DecidableEq

/-- market.py `create_prices` (lines 311-327): one record per feed row
whose code is in `offer_ids`; the price value is
`int(price_conversion(...))`, whose possible `ValueError` (e.g. on an
empty digit string) is modelled by `Option`. -/
def create_prices : List Watch → List String → Option (List PriceRec)
  | [], _ => some []
  | w :: ws, ids =>
    if w.kod ∈ ids then
      match pyInt? (price_conversion w.tsena) with
      | none => none
      | some v =>
        match create_prices ws ids with
        | none => none
        | some recs => some ({ id := w.kod, price := { value := v, currencyId := "RUR" } } :: recs)
    else create_prices ws ids

/-- Result of market.py `upload_stocks` (lines 416-423): the batches
handed to `update_stocks` and the returned pair `(not_empty, stocks)`. -/
structure UploadStocksResult where
  batches : List (List StockRec)
  not_empty : List StockRec
  stocks : List StockRec
deriving Repr, DecidableEq

/-- market.py `upload_stocks` (lines 416-423), with the fetched offer
ids passed in: build the stocks, send them in batches of 2000, and
return the records with `items[0]["count"] != 0` together with the full
list.  `items` is always a singleton for records built by
`create_stocks`; `headD` stands for the `[0]` indexing. -/
def upload_stocks (watch_remnants : List Watch) (offer_ids : List String)
    (warehouse_id date : String) : Option UploadStocksResult :=
  match create_stocks watch_remnants offer_ids warehouse_id date with
  | none => none
  | some (stocks, _) =>
      some { batches := divide stocks 2000,
             not_empty := stocks.filter (fun stock =>
               (stock.items.headD { count := 0, type := "", updatedAt := "" }).count ≠ 0),
             stocks := stocks }

/-- market.py `upload_prices` (lines 367-371), with the fetched offer ids
passed in: build the prices and send them in batches of 500.  Returns the
batches handed to `update_price` and the returned `prices` list.  This is
the behaviour of the coroutine body when it is actually awaited. -/
def upload_prices (watch_remnants : List Watch) (offer_ids : List String) :
    Option (List (List PriceRec) × List PriceRec) :=
  match create_prices watch_remnants offer_ids with
  | none => none
  | some prices => some (divide prices 500, prices)

/-- A marketplace write issued by market.py `main`: a `PUT .../offers/stocks`
with one batch, or a `POST .../offer-prices/updates` with one batch. -/
inductive Call where
  | putStocks : List StockRec → String → Call
  | postPrices : List PriceRec → String → Call
deriving Repr, DecidableEq

/-- `True` exactly on price-update calls. -/
def Call.isPriceUpdate : Call → Prop
  | .putStocks _ _ => False
  | .postPrices _ _ => True

/-- The writes issued by the body of market.py `main`'s try block (lines
458-473) for the two campaigns (FBS then DBS), with the network reads
passed in (`fbs_ids`/`dbs_ids` are the two `get_offer_ids` results).
For each campaign the stocks are built and sent in batches of 2000; the
call `upload_prices(...)` at lines 464 and 473 is an async function
invoked without `await`, so it only creates a coroutine object that is
never run — it contributes no calls (the `_coroutine` bindings record
the discarded coroutine values). -/
def main_calls (watch_remnants : List Watch) (fbs_ids dbs_ids : List String)
    (campaign_fbs_id campaign_dbs_id warehouse_fbs_id warehouse_dbs_id date : String) :
    Option (List Call) :=
  match create_stocks watch_remnants fbs_ids warehouse_fbs_id date with
  | none => none
  | some (stocks_fbs, _) =>
      let _coroutine_fbs := upload_prices watch_remnants fbs_ids
      match create_stocks watch_remnants dbs_ids warehouse_dbs_id date with
      | none => none
      | some (stocks_dbs, _) =>
          let _coroutine_dbs := upload_prices watch_remnants dbs_ids
          some ((divide stocks_fbs 2000).map (fun b => Call.putStocks b campaign_fbs_id) ++
                (divide stocks_dbs 2000).map (fun b => Call.putStocks b campaign_dbs_id))

/-- market.py `main` (lines 448-479): `download_stock()` (line 455) runs
BEFORE the `try` block, so its exception propagates out of `main`; the
rest of the work runs inside the `try` block with the same three handlers
as seller.py, each printing a message and returning normally. -/
def main_result (download : Except PyExc Unit) (work : Except PyExc Unit) :
    Except PyExc (List String) :=
  match download with
  | .error e => .error e
  | .ok _ =>
    match work with
    | .ok _ => .ok []
    | .error .readTimeout => .ok ["Превышено время ожидания..."]
    | .error (.connectionError msg) => .ok [msg ++ " Ошибка соединения"]
    | .error (.other msg) => .ok [msg ++ " ERROR_2"]

end Market
/-! ## Helper lemmas -/

/-- `pySplit` always returns at least one piece, like Python `split`. -/
theorem pySplit_ne_nil (sep : Char) (l : List Char) : pySplit sep l ≠ [] := by
  cases l with
  | nil => simp [pySplit]
  | cons c cs =>
    by_cases hc : c = sep
    · simp [pySplit, hc]
    · simp only [pySplit, if_neg hc]
      cases pySplit sep cs <;> simp

/-- The first piece of Python `split` is the prefix before the first
occurrence of the separator. -/
theorem pySplit_headD (sep : Char) (l : List Char) :
    (pySplit sep l).headD [] = l.takeWhile (fun c => c ≠ sep) := by
  induction l with
  | nil => simp [pySplit]
  | cons c cs ih =>
    by_cases hc : c = sep
    · simp [pySplit, hc, List.takeWhile]
    · simp only [pySplit, if_neg hc]
      cases hps : pySplit sep cs with
      | nil => exact absurd hps (pySplit_ne_nil sep cs)
      | cons piece rest =>
        rw [hps] at ih
        simp only [List.headD] at ih ⊢
        simp [List.takeWhile, hc, ih]

/-- `divide` on the empty list yields no chunk. -/
theorem divide_nil (n : Nat) : divide ([] : List α) n = [] := by
  cases n <;> simp [divide]

/-- `divide` yields chunks only for nonempty lists. -/
theorem divide_eq_nil_iff (lst : List α) (n : Nat) (h : 0 < n) :
    divide lst n = [] ↔ lst = [] := by
  cases n with
  | zero => omega
  | succ n =>
    cases lst with
    | nil => simp [divide]
    | cons a l => simp [divide]

/-- The chunks of `divide` concatenate back to the original list. -/
theorem divide_flatten (lst : List α) (n : Nat) (h : 0 < n) :
    (divide lst n).flatten = lst := by
  induction lst, n using divide.induct with
  | case1 m => simp [divide]
  | case2 a l => omega
  | case3 a l n ih =>
    rw [divide, List.flatten_cons, ih (Nat.succ_pos n)]
    rw [show l.drop n = (a :: l).drop (n + 1) from (List.drop_succ_cons).symm]
    exact List.take_append_drop (n + 1) (a :: l)

/-- Every chunk of `divide` is nonempty and no longer than `n`. -/
theorem divide_mem_length (lst : List α) (n : Nat) (h : 0 < n) :
    ∀ c ∈ divide lst n, c ≠ [] ∧ c.length ≤ n := by
  induction lst, n using divide.induct with
  | case1 m => simp [divide]
  | case2 a l => omega
  | case3 a l n ih =>
    rw [divide]
    intro c hc
    rcases List.mem_cons.mp hc with hc | hc
    · subst hc
      refine ⟨by simp, ?_⟩
      simp [Nat.min_le_left]
    · exact ih (Nat.succ_pos n) c hc

/-- Every chunk of `divide` except possibly the last has length exactly `n`. -/
theorem divide_dropLast_length (lst : List α) (n : Nat) (h : 0 < n) :
    ∀ c ∈ (divide lst n).dropLast, c.length = n := by
  induction lst, n using divide.induct with
  | case1 m => simp [divide]
  | case2 a l => omega
  | case3 a l n ih =>
    rw [divide]
    intro c hc
    cases hrest : divide (l.drop n) (n + 1) with
    | nil => rw [hrest] at hc; simp at hc
    | cons r rs =>
      rw [hrest] at hc
      rw [List.dropLast_cons_of_ne_nil (by simp)] at hc
      rcases List.mem_cons.mp hc with hc | hc
      · subst hc
        have hdrop : l.drop n ≠ [] := by
          intro hd
          rw [hd, divide_nil] at hrest
          exact List.noConfusion hrest
        have hlen : n < l.length := by
          by_contra hle
          exact hdrop (List.drop_of_length_le (by omega))
        simp only [List.length_take, List.length_cons]
        omega
      · have := ih (Nat.succ_pos n) c
        rw [hrest] at this
        exact this hc
/-- Every record built by the seller matching loop comes from a feed row,
with its stock given by `stockOfCount` on that row's quantity string. -/
theorem Seller.stocksLoop_sound :
    ∀ (ws : List Watch) (ids : List String) (recs : List Seller.StockRec) (ids' : List String),
      Seller.stocksLoop ws ids = some (recs, ids') →
      ∀ r ∈ recs, ∃ w ∈ ws, r.offer_id = w.kod ∧ stockOfCount w.kolichestvo = some r.stock := by
  intro ws
  induction ws with
  | nil =>
    intro ids recs ids' h r hr
    simp only [Seller.stocksLoop, Option.some.injEq, Prod.mk.injEq] at h
    rw [← h.1] at hr
    simp at hr
  | cons w ws ih =>
    intro ids recs ids' h r hr
    by_cases hmem : w.kod ∈ ids
    · rw [Seller.stocksLoop, if_pos hmem] at h
      cases hq : stockOfCount w.kolichestvo with
      | none => rw [hq] at h; exact Option.noConfusion h
      | some q =>
        rw [hq] at h
        cases hrec : Seller.stocksLoop ws (ids.erase w.kod) with
        | none => rw [hrec] at h; exact Option.noConfusion h
        | some p =>
          rw [hrec] at h
          obtain ⟨recs0, ids0⟩ := p
          simp only [Option.some.injEq, Prod.mk.injEq] at h
          rw [← h.1] at hr
          rcases List.mem_cons.mp hr with hr | hr
          · subst hr
            exact ⟨w, List.mem_cons_self w ws, rfl, hq⟩
          · obtain ⟨w', hw', hrw'⟩ := ih (ids.erase w.kod) recs0 ids0 hrec r hr
            exact ⟨w', List.mem_cons_of_mem w hw', hrw'⟩
    · rw [Seller.stocksLoop, if_neg hmem] at h
      obtain ⟨w', hw', hrw'⟩ := ih ids recs ids' h r hr
      exact ⟨w', List.mem_cons_of_mem w hw', hrw'⟩

/-- The final `offer_ids` list left by the seller matching loop is a
sublist of the initial one (elements are only removed). -/
theorem Seller.stocksLoop_sublist :
    ∀ (ws : List Watch) (ids : List String) (recs : List Seller.StockRec) (ids' : List String),
      Seller.stocksLoop ws ids = some (recs, ids') → ids'.Sublist ids := by
  intro ws
  induction ws with
  | nil =>
    intro ids recs ids' h
    simp only [Seller.stocksLoop, Option.some.injEq, Prod.mk.injEq] at h
    rw [← h.2]
  | cons w ws ih =>
    intro ids recs ids' h
    by_cases hmem : w.kod ∈ ids
    · rw [Seller.stocksLoop, if_pos hmem] at h
      cases hq : stockOfCount w.kolichestvo with
      | none => rw [hq] at h; exact Option.noConfusion h
      | some q =>
        rw [hq] at h
        cases hrec : Seller.stocksLoop ws (ids.erase w.kod) with
        | none => rw [hrec] at h; exact Option.noConfusion h
        | some p =>
          rw [hrec] at h
          obtain ⟨recs0, ids0⟩ := p
          simp only [Option.some.injEq, Prod.mk.injEq] at h
          rw [← h.2]
          exact (ih (ids.erase w.kod) recs0 ids0 hrec).trans (List.erase_sublist w.kod ids)
    · rw [Seller.stocksLoop, if_neg hmem] at h
      exact ih ids recs ids' h

/-- Every initial offer id either survives the seller matching loop or a
matched record was emitted for it. -/
theorem Seller.stocksLoop_covers :
    ∀ (ws : List Watch) (ids : List String) (recs : List Seller.StockRec) (ids' : List String),
      Seller.stocksLoop ws ids = some (recs, ids') →
      ∀ id ∈ ids, id ∈ ids' ∨ ∃ r ∈ recs, r.offer_id = id := by
  intro ws
  induction ws with
  | nil =>
    intro ids recs ids' h id hid
    simp only [Seller.stocksLoop, Option.some.injEq, Prod.mk.injEq] at h
    rw [← h.2]
    exact Or.inl hid
  | cons w ws ih =>
    intro ids recs ids' h id hid
    by_cases hmem : w.kod ∈ ids
    · rw [Seller.stocksLoop, if_pos hmem] at h
      cases hq : stockOfCount w.kolichestvo with
      | none => rw [hq] at h; exact Option.noConfusion h
      | some q =>
        rw [hq] at h
        cases hrec : Seller.stocksLoop ws (ids.erase w.kod) with
        | none => rw [hrec] at h; exact Option.noConfusion h
        | some p =>
          rw [hrec] at h
          obtain ⟨recs0, ids0⟩ := p
          simp only [Option.some.injEq, Prod.mk.injEq] at h
          by_cases hidw : id = w.kod
          · refine Or.inr ⟨{ offer_id := w.kod, stock := q }, ?_, hidw.symm⟩
            rw [← h.1]
            exact List.mem_cons_self _ _
          · have hid' : id ∈ ids.erase w.kod := (List.mem_erase_of_ne hidw).mpr hid
            rcases ih (ids.erase w.kod) recs0 ids0 hrec id hid' with hin | ⟨r, hr, hrid⟩
            · rw [← h.2] at *
              exact Or.inl hin
            · refine Or.inr ⟨r, ?_, hrid⟩
              rw [← h.1]
              exact List.mem_cons_of_mem _ hr
    · rw [Seller.stocksLoop, if_neg hmem] at h
      exact ih ids recs ids' h id hid

/-- On an initially duplicate-free offer list, an id survives the seller
matching loop exactly when no matched record was emitted for it. -/
theorem Seller.stocksLoop_nodup_iff :
    ∀ (ws : List Watch) (ids : List String) (recs : List Seller.StockRec) (ids' : List String),
      Seller.stocksLoop ws ids = some (recs, ids') → ids.Nodup →
      ∀ id ∈ ids, (id ∈ ids' ↔ ∀ r ∈ recs, r.offer_id ≠ id) := by
  intro ws
  induction ws with
  | nil =>
    intro ids recs ids' h hnd id hid
    simp only [Seller.stocksLoop, Option.some.injEq, Prod.mk.injEq] at h
    rw [← h.1, ← h.2]
    simp [hid]
  | cons w ws ih =>
    intro ids recs ids' h hnd id hid
    by_cases hmem : w.kod ∈ ids
    · rw [Seller.stocksLoop, if_pos hmem] at h
      cases hq : stockOfCount w.kolichestvo with
      | none => rw [hq] at h; exact Option.noConfusion h
      | some q =>
        rw [hq] at h
        cases hrec : Seller.stocksLoop ws (ids.erase w.kod) with
        | none => rw [hrec] at h; exact Option.noConfusion h
        | some p =>
          rw [hrec] at h
          obtain ⟨recs0, ids0⟩ := p
          simp only [Option.some.injEq, Prod.mk.injEq] at h
          by_cases hidw : id = w.kod
          · constructor
            · intro hin
              exfalso
              have hsub := Seller.stocksLoop_sublist ws (ids.erase w.kod) recs0 ids0 hrec
              rw [← h.2] at hin
              have hmem2 : id ∈ ids.erase w.kod := hsub.subset hin
              rw [hnd.mem_erase_iff] at hmem2
              exact hmem2.1 hidw
            · intro hall
              exfalso
              refine hall { offer_id := w.kod, stock := q } ?_ hidw.symm
              rw [← h.1]
              exact List.mem_cons_self _ _
          · have hid' : id ∈ ids.erase w.kod := (List.mem_erase_of_ne hidw).mpr hid
            have := ih (ids.erase w.kod) recs0 ids0 hrec (hnd.erase w.kod) id hid'
            rw [← h.1, ← h.2]
            rw [this]
            constructor
            · intro hall r hr
              rcases List.mem_cons.mp hr with hr | hr
              · rw [hr]
                intro hcon
                exact hidw hcon.symm
              · exact hall r hr
            · intro hall r hr
              exact hall r (List.mem_cons_of_mem _ hr)
    · rw [Seller.stocksLoop, if_neg hmem] at h
      exact ih ids recs ids' h hnd id hid

/-- Every record emitted by seller.py `create_prices` carries a code from
the offer list. -/
theorem Seller.create_prices_mem :
    ∀ (ws : List Watch) (ids : List String) (r : Seller.PriceRec),
      r ∈ Seller.create_prices ws ids → r.offer_id ∈ ids := by
  intro ws
  induction ws with
  | nil => intro ids r hr; simp [Seller.create_prices] at hr
  | cons w ws ih =>
    intro ids r hr
    by_cases hmem : w.kod ∈ ids
    · rw [Seller.create_prices, if_pos hmem] at hr
      rcases List.mem_cons.mp hr with hr | hr
      · rw [hr]
        exact hmem
      · exact ih ids r hr
    · rw [Seller.create_prices, if_neg hmem] at hr
      exact ih ids r hr
/-- Every record built by the market matching loop comes from a feed row,
with its singleton `items` count given by `stockOfCount` on that row's
quantity string. -/
theorem Market.stocksLoop_sound_m :
    ∀ (wh d : String) (ws : List Watch) (ids : List String)
      (recs : List Market.StockRec) (ids' : List String),
      Market.stocksLoop wh d ws ids = some (recs, ids') →
      ∀ r ∈ recs, ∃ w ∈ ws, r.sku = w.kod ∧ r.warehouseId = wh ∧
        ∃ q, stockOfCount w.kolichestvo = some q ∧
          r.items = [{ count := q, type := "FIT", updatedAt := d }] := by
  intro wh d ws
  induction ws with
  | nil =>
    intro ids recs ids' h r hr
    simp only [Market.stocksLoop, Option.some.injEq, Prod.mk.injEq] at h
    rw [← h.1] at hr
    simp at hr
  | cons w ws ih =>
    intro ids recs ids' h r hr
    by_cases hmem : w.kod ∈ ids
    · rw [Market.stocksLoop, if_pos hmem] at h
      cases hq : stockOfCount w.kolichestvo with
      | none => rw [hq] at h; exact Option.noConfusion h
      | some q =>
        rw [hq] at h
        cases hrec : Market.stocksLoop wh d ws (ids.erase w.kod) with
        | none => rw [hrec] at h; exact Option.noConfusion h
        | some p =>
          rw [hrec] at h
          obtain ⟨recs0, ids0⟩ := p
          simp only [Option.some.injEq, Prod.mk.injEq] at h
          rw [← h.1] at hr
          rcases List.mem_cons.mp hr with hr | hr
          · subst hr
            exact ⟨w, List.mem_cons_self w ws, rfl, rfl, q, hq, rfl⟩
          · obtain ⟨w', hw', hrw'⟩ := ih (ids.erase w.kod) recs0 ids0 hrec r hr
            exact ⟨w', List.mem_cons_of_mem w hw', hrw'⟩
    · rw [Market.stocksLoop, if_neg hmem] at h
      obtain ⟨w', hw', hrw'⟩ := ih ids recs ids' h r hr
      exact ⟨w', List.mem_cons_of_mem w hw', hrw'⟩

/-- The final `offer_ids` list left by the market matching loop is a
sublist of the initial one. -/
theorem Market.stocksLoop_sublist_m :
    ∀ (wh d : String) (ws : List Watch) (ids : List String)
      (recs : List Market.StockRec) (ids' : List String),
      Market.stocksLoop wh d ws ids = some (recs, ids') → ids'.Sublist ids := by
  intro wh d ws
  induction ws with
  | nil =>
    intro ids recs ids' h
    simp only [Market.stocksLoop, Option.some.injEq, Prod.mk.injEq] at h
    rw [← h.2]
  | cons w ws ih =>
    intro ids recs ids' h
    by_cases hmem : w.kod ∈ ids
    · rw [Market.stocksLoop, if_pos hmem] at h
      cases hq : stockOfCount w.kolichestvo with
      | none => rw [hq] at h; exact Option.noConfusion h
      | some q =>
        rw [hq] at h
        cases hrec : Market.stocksLoop wh d ws (ids.erase w.kod) with
        | none => rw [hrec] at h; exact Option.noConfusion h
        | some p =>
          rw [hrec] at h
          obtain ⟨recs0, ids0⟩ := p
          simp only [Option.some.injEq, Prod.mk.injEq] at h
          rw [← h.2]
          exact (ih (ids.erase w.kod) recs0 ids0 hrec).trans (List.erase_sublist w.kod ids)
    · rw [Market.stocksLoop, if_neg hmem] at h
      exact ih ids recs ids' h

/-- Every initial offer id either survives the market matching loop or a
matched record was emitted for it. -/
theorem Market.stocksLoop_covers_m :
    ∀ (wh d : String) (ws : List Watch) (ids : List String)
      (recs : List Market.StockRec) (ids' : List String),
      Market.stocksLoop wh d ws ids = some (recs, ids') →
      ∀ id ∈ ids, id ∈ ids' ∨ ∃ r ∈ recs, r.sku = id := by
  intro wh d ws
  induction ws with
  | nil =>
    intro ids recs ids' h id hid
    simp only [Market.stocksLoop, Option.some.injEq, Prod.mk.injEq] at h
    rw [← h.2]
    exact Or.inl hid
  | cons w ws ih =>
    intro ids recs ids' h id hid
    by_cases hmem : w.kod ∈ ids
    · rw [Market.stocksLoop, if_pos hmem] at h
      cases hq : stockOfCount w.kolichestvo with
      | none => rw [hq] at h; exact Option.noConfusion h
      | some q =>
        rw [hq] at h
        cases hrec : Market.stocksLoop wh d ws (ids.erase w.kod) with
        | none => rw [hrec] at h; exact Option.noConfusion h
        | some p =>
          rw [hrec] at h
          obtain ⟨recs0, ids0⟩ := p
          simp only [Option.some.injEq, Prod.mk.injEq] at h
          by_cases hidw : id = w.kod
          · refine Or.inr ⟨⟨w.kod, wh, [⟨q, "FIT", d⟩]⟩, ?_, hidw.symm⟩
            rw [← h.1]
            exact List.mem_cons_self _ _
          · have hid' : id ∈ ids.erase w.kod := (List.mem_erase_of_ne hidw).mpr hid
            rcases ih (ids.erase w.kod) recs0 ids0 hrec id hid' with hin | ⟨r, hr, hrid⟩
            · rw [← h.2]
              exact Or.inl hin
            · refine Or.inr ⟨r, ?_, hrid⟩
              rw [← h.1]
              exact List.mem_cons_of_mem _ hr
    · rw [Market.stocksLoop, if_neg hmem] at h
      exact ih ids recs ids' h id hid

/-- On an initially duplicate-free offer list, an id survives the market
matching loop exactly when no matched record was emitted for it. -/
theorem Market.stocksLoop_nodup_iff_m :
    ∀ (wh d : String) (ws : List Watch) (ids : List String)
      (recs : List Market.StockRec) (ids' : List String),
      Market.stocksLoop wh d ws ids = some (recs, ids') → ids.Nodup →
      ∀ id ∈ ids, (id ∈ ids' ↔ ∀ r ∈ recs, r.sku ≠ id) := by
  intro wh d ws
  induction ws with
  | nil =>
    intro ids recs ids' h hnd id hid
    simp only [Market.stocksLoop, Option.some.injEq, Prod.mk.injEq] at h
    rw [← h.1, ← h.2]
    simp [hid]
  | cons w ws ih =>
    intro ids recs ids' h hnd id hid
    by_cases hmem : w.kod ∈ ids
    · rw [Market.stocksLoop, if_pos hmem] at h
      cases hq : stockOfCount w.kolichestvo with
      | none => rw [hq] at h; exact Option.noConfusion h
      | some q =>
        rw [hq] at h
        cases hrec : Market.stocksLoop wh d ws (ids.erase w.kod) with
        | none => rw [hrec] at h; exact Option.noConfusion h
        | some p =>
          rw [hrec] at h
          obtain ⟨recs0, ids0⟩ := p
          simp only [Option.some.injEq, Prod.mk.injEq] at h
          by_cases hidw : id = w.kod
          · constructor
            · intro hin
              exfalso
              have hsub := Market.stocksLoop_sublist_m wh d ws (ids.erase w.kod) recs0 ids0 hrec
              rw [← h.2] at hin
              have hmem2 : id ∈ ids.erase w.kod := hsub.subset hin
              rw [hnd.mem_erase_iff] at hmem2
              exact hmem2.1 hidw
            · intro hall
              exfalso
              refine hall ⟨w.kod, wh, [⟨q, "FIT", d⟩]⟩ ?_ hidw.symm
              rw [← h.1]
              exact List.mem_cons_self _ _
          · have hid' : id ∈ ids.erase w.kod := (List.mem_erase_of_ne hidw).mpr hid
            have hiff := ih (ids.erase w.kod) recs0 ids0 hrec (hnd.erase w.kod) id hid'
            rw [← h.1, ← h.2, hiff]
            constructor
            · intro hall r hr
              rcases List.mem_cons.mp hr with hr | hr
              · rw [hr]
                intro hcon
                exact hidw hcon.symm
              · exact hall r hr
            · intro hall r hr
              exact hall r (List.mem_cons_of_mem _ hr)
    · rw [Market.stocksLoop, if_neg hmem] at h
      exact ih ids recs ids' h hnd id hid

/-- Every record emitted by market.py `create_prices` carries a code from
the offer list. -/
theorem Market.create_prices_mem_m :
    ∀ (ws : List Watch) (ids : List String) (recs : List Market.PriceRec),
      Market.create_prices ws ids = some recs → ∀ r ∈ recs, r.id ∈ ids := by
  intro ws
  induction ws with
  | nil =>
    intro ids recs h r hr
    simp only [Market.create_prices, Option.some.injEq] at h
    rw [← h] at hr
    simp at hr
  | cons w ws ih =>
    intro ids recs h r hr
    by_cases hmem : w.kod ∈ ids
    · rw [Market.create_prices, if_pos hmem] at h
      cases hv : pyInt? (price_conversion w.tsena) with
      | none => rw [hv] at h; exact Option.noConfusion h
      | some v =>
        rw [hv] at h
        cases hrec : Market.create_prices ws ids with
        | none => rw [hrec] at h; exact Option.noConfusion h
        | some recs0 =>
          rw [hrec] at h
          simp only [Option.some.injEq] at h
          rw [← h] at hr
          rcases List.mem_cons.mp hr with hr | hr
          · rw [hr]
            exact hmem
          · exact ih ids recs0 hrec r hr
    · rw [Market.create_prices, if_neg hmem] at h
      exact ih ids recs h r hr
/-- Running the pagination loop from iteration `j`'s state: if the
stopping condition first holds at iteration `N` and enough fuel remains,
the loop returns everything accumulated through iteration `N`. -/
theorem Seller.offersLoop_reaches (f : String → Seller.Page) (N : Nat)
    (hmin : ∀ k, k < N → ¬ Seller.stopsAt f k) (hstop : Seller.stopsAt f N) :
    ∀ (fuel j : Nat), j ≤ N → N - j < fuel →
      Seller.offersLoop f fuel (Seller.cursorAt f j) (Seller.accAt f j) =
        some (Seller.accAt f (N + 1)) := by
  intro fuel
  induction fuel with
  | zero => intro j _ hj; omega
  | succ m ih =>
    intro j hjN hfuel
    rw [Seller.offersLoop]
    have hacc : Seller.accAt f (j + 1) = Seller.accAt f j ++ (f (Seller.cursorAt f j)).items := rfl
    have hcur : Seller.cursorAt f (j + 1) = (f (Seller.cursorAt f j)).last_id := rfl
    rw [← hacc, ← hcur]
    by_cases hstopj : (f (Seller.cursorAt f j)).total = (Seller.accAt f (j + 1)).length
    · have hj : j = N := by
        by_contra hne
        exact hmin j (by omega) hstopj
      subst hj
      rw [if_pos hstopj]
    · have hjN' : j < N := by
        rcases Nat.eq_or_lt_of_le hjN with h | h
        · subst h
          exact absurd hstop hstopj
        · exact h
      rw [if_neg hstopj]
      exact ih (j + 1) (by omega) (by omega)
/-! ## Claim theorems -/

/-- C1: For every feed row whose product code is in the offer list, the
stock quantity built by `create_stocks` (in both seller.py and market.py)
is determined by the row's quantity string: the literal string ">10"
yields 100, the literal string "1" yields 0, and any other numeric string
yields the integer it denotes (Python `int`, modelled by `pyInt?`). -/
theorem claim_C1_quantity_rule :
    (stockOfCount ">10" = some 100) ∧
    (stockOfCount "1" = some 0) ∧
    (∀ s : String, s ≠ ">10" → s ≠ "1" → stockOfCount s = pyInt? s) ∧
    (∀ (ws : List Watch) (ids : List String) (recs : List Seller.StockRec) (ids' : List String),
      Seller.stocksLoop ws ids = some (recs, ids') →
      ∀ r ∈ recs, ∃ w ∈ ws, r.offer_id = w.kod ∧ stockOfCount w.kolichestvo = some r.stock) ∧
    (∀ (wh d : String) (ws : List Watch) (ids : List String)
        (recs : List Market.StockRec) (ids' : List String),
      Market.stocksLoop wh d ws ids = some (recs, ids') →
      ∀ r ∈ recs, ∃ w ∈ ws, r.sku = w.kod ∧
        ∃ q, stockOfCount w.kolichestvo = some q ∧
          r.items = [{ count := q, type := "FIT", updatedAt := d }]) := by
  refine ⟨rfl, rfl, ?_, ?_, ?_⟩
  · intro s h1 h2
    simp [stockOfCount, h1, h2]
  · intro ws ids recs ids' h r hr
    exact Seller.stocksLoop_sound ws ids recs ids' h r hr
  · intro wh d ws ids recs ids' h r hr
    obtain ⟨w, hw, hsku, hwh, q, hq, hitems⟩ :=
      Market.stocksLoop_sound_m wh d ws ids recs ids' h r hr
    exact ⟨w, hw, hsku, q, hq, hitems⟩

/-- Witness for C1 at concrete inputs: the quantity string "7" is parsed
as 7, and a one-row feed matched against a one-id offer list yields the
`stockOfCount`-determined record. -/
theorem claim_C1_witness :
    stockOfCount "7" = some 7 ∧
    (∃ w ∈ [({ kod := "123", kolichestvo := ">10", tsena := "0" } : Watch)],
      ({ offer_id := "123", stock := 100 } : Seller.StockRec).offer_id = w.kod ∧
        stockOfCount w.kolichestvo = some ({ offer_id := "123", stock := 100 } : Seller.StockRec).stock) := by
  constructor
  · have h := claim_C1_quantity_rule.2.2.1 "7" (by decide) (by decide)
    rw [h]
    decide
  · exact claim_C1_quantity_rule.2.2.2.1
      [{ kod := "123", kolichestvo := ">10", tsena := "0" }] ["123"]
      [{ offer_id := "123", stock := 100 }] [] (by decide)
      { offer_id := "123", stock := 100 } (by decide)

/-- C2: `price_conversion` returns the part of the input before the first
decimal point with every non-digit character deleted: it agrees with the
specification's `takeWhile`/`filter` formulation on every string, its
output consists of decimal digits only, and it is empty when the input
has no digit before the first decimal point. -/
theorem claim_C2_price_rule :
    (∀ s : String, price_conversion s = price_conversionSpec s) ∧
    (∀ s : String, ∀ c ∈ (price_conversion s).toList, c.isDigit) ∧
    (∀ s : String, (∀ c ∈ s.toList.takeWhile (fun c => c ≠ '.'), ¬ c.isDigit) →
      price_conversion s = "") := by
  have hkey : ∀ s : String,
      price_conversion s =
        String.mk ((s.toList.takeWhile (fun c => c ≠ '.')).filter Char.isDigit) := by
    intro s
    unfold price_conversion
    rw [pySplit_headD]
  refine ⟨?_, ?_, ?_⟩
  · intro s
    rw [hkey]
    rfl
  · intro s c hc
    rw [hkey] at hc
    have hlist : (String.mk ((s.toList.takeWhile (fun c => c ≠ '.')).filter Char.isDigit)).toList
        = (s.toList.takeWhile (fun c => c ≠ '.')).filter Char.isDigit := rfl
    rw [hlist] at hc
    exact (List.mem_filter.mp hc).2
  · intro s hnone
    rw [hkey]
    have hfil : (s.toList.takeWhile (fun c => c ≠ '.')).filter Char.isDigit = [] :=
      List.filter_eq_nil_iff.mpr (fun c hc => by simpa using hnone c hc)
    rw [hfil]

/-- Witness for C2 at concrete inputs: the docstring's own example, and
an input with no digit before the decimal point. -/
theorem claim_C2_witness :
    price_conversion "5'990.00 руб." = "5990" ∧ price_conversion "abc.50" = "" := by
  constructor
  · have h := claim_C2_price_rule.1 "5'990.00 руб."
    rw [h]
    decide
  · exact claim_C2_price_rule.2.2 "abc.50" (by decide)

/-- C5: for `n > 0` the chunks of `divide lst n` concatenate back to
`lst` in order, every chunk except possibly the last has length exactly
`n`, every chunk is nonempty with length at most `n`, and the empty list
yields no chunk. -/
theorem claim_C5_divide (α : Type) (lst : List α) (n : Nat) (h : 0 < n) :
    (divide lst n).flatten = lst ∧
    (∀ c ∈ (divide lst n).dropLast, c.length = n) ∧
    (∀ c ∈ divide lst n, c ≠ [] ∧ c.length ≤ n) ∧
    divide ([] : List α) n = [] :=
  ⟨divide_flatten lst n h, divide_dropLast_length lst n h,
   divide_mem_length lst n h, divide_nil n⟩

/-- Witness for C5 at a concrete input (the docstring's own example
`divide([1, 2, 3, 4, 5], 2)`). -/
theorem claim_C5_witness :
    (divide [1, 2, 3, 4, 5] 2).flatten = [1, 2, 3, 4, 5] ∧
    (∀ c ∈ (divide [1, 2, 3, 4, 5] 2).dropLast, c.length = 2) ∧
    (∀ c ∈ divide [1, 2, 3, 4, 5] 2, c ≠ [] ∧ c.length ≤ 2) ∧
    divide ([] : List Nat) 2 = [] :=
  claim_C5_divide Nat [1, 2, 3, 4, 5] 2 (by decide)
/-- C3: `create_prices` (both marketplaces) emits no record for a feed
row whose code is absent from the offer list — every emitted record's
code belongs to the list — and `create_stocks` (both marketplaces)
zero-fills every id left unmatched, so every offer id from the offer
list appears in the stock output. -/
theorem claim_C3_skip_and_zero_fill :
    (∀ (ws : List Watch) (ids : List String) (r : Seller.PriceRec),
      r ∈ Seller.create_prices ws ids → r.offer_id ∈ ids) ∧
    (∀ (ws : List Watch) (ids : List String) (recs : List Market.PriceRec),
      Market.create_prices ws ids = some recs → ∀ r ∈ recs, r.id ∈ ids) ∧
    (∀ (ws : List Watch) (ids : List String) (recs : List Seller.StockRec) (ids' : List String),
      Seller.create_stocks ws ids = some (recs, ids') →
      (∀ id ∈ ids', ({ offer_id := id, stock := 0 } : Seller.StockRec) ∈ recs) ∧
      (∀ id ∈ ids, ∃ r ∈ recs, r.offer_id = id)) ∧
    (∀ (ws : List Watch) (ids : List String) (wh d : String)
        (recs : List Market.StockRec) (ids' : List String),
      Market.create_stocks ws ids wh d = some (recs, ids') →
      (∀ id ∈ ids',
        ({ sku := id, warehouseId := wh,
           items := [{ count := 0, type := "FIT", updatedAt := d }] } : Market.StockRec) ∈ recs) ∧
      (∀ id ∈ ids, ∃ r ∈ recs, r.sku = id)) := by
  refine ⟨Seller.create_prices_mem, Market.create_prices_mem_m, ?_, ?_⟩
  · intro ws ids recs ids' h
    unfold Seller.create_stocks at h
    cases hl : Seller.stocksLoop ws ids with
    | none => rw [hl] at h; exact Option.noConfusion h
    | some p =>
      obtain ⟨recs0, ids0⟩ := p
      rw [hl] at h
      simp only [Option.some.injEq, Prod.mk.injEq] at h
      obtain ⟨hrecs, hids⟩ := h
      constructor
      · intro id hid
        rw [← hrecs]
        refine List.mem_append_right _ ?_
        rw [hids]
        exact List.mem_map_of_mem _ hid
      · intro id hid
        rcases Seller.stocksLoop_covers ws ids recs0 ids0 hl id hid with hin | ⟨r, hr, hrid⟩
        · refine ⟨{ offer_id := id, stock := 0 }, ?_, rfl⟩
          rw [← hrecs]
          exact List.mem_append_right _ (List.mem_map_of_mem _ hin)
        · refine ⟨r, ?_, hrid⟩
          rw [← hrecs]
          exact List.mem_append_left _ hr
  · intro ws ids wh d recs ids' h
    unfold Market.create_stocks at h
    cases hl : Market.stocksLoop wh d ws ids with
    | none => rw [hl] at h; exact Option.noConfusion h
    | some p =>
      obtain ⟨recs0, ids0⟩ := p
      rw [hl] at h
      simp only [Option.some.injEq, Prod.mk.injEq] at h
      obtain ⟨hrecs, hids⟩ := h
      constructor
      · intro id hid
        rw [← hrecs]
        refine List.mem_append_right _ ?_
        rw [hids]
        exact List.mem_map_of_mem _ hid
      · intro id hid
        rcases Market.stocksLoop_covers_m wh d ws ids recs0 ids0 hl id hid with hin | ⟨r, hr, hrid⟩
        · refine ⟨⟨id, wh, [⟨0, "FIT", d⟩]⟩, ?_, rfl⟩
          rw [← hrecs]
          exact List.mem_append_right _ (List.mem_map_of_mem _ hin)
        · refine ⟨r, ?_, hrid⟩
          rw [← hrecs]
          exact List.mem_append_left _ hr

/-- Witness for C3 at a concrete input: a one-row feed against a two-id
offer list — the unmatched id "789" is zero-filled and the matched id
"123" appears in the output. -/
theorem claim_C3_witness :
    (({ offer_id := "789", stock := 0 } : Seller.StockRec) ∈
      [({ offer_id := "123", stock := 100 } : Seller.StockRec),
       { offer_id := "789", stock := 0 }]) ∧
    (∃ r ∈ [({ offer_id := "123", stock := 100 } : Seller.StockRec),
            { offer_id := "789", stock := 0 }], r.offer_id = "123") := by
  have h := claim_C3_skip_and_zero_fill.2.2.1
    [{ kod := "123", kolichestvo := ">10", tsena := "100" }] ["123", "789"]
    [{ offer_id := "123", stock := 100 }, { offer_id := "789", stock := 0 }] ["789"]
    (by decide)
  exact ⟨h.1 "789" (by decide), h.2 "123" (by decide)⟩
/-- C4: every batch handed to a marketplace update call respects the
platform bound — market.py: stock batches ≤ 2000 (`upload_stocks` and
`main`), price batches ≤ 500 (`upload_prices`); seller.py: stock batches
≤ 100 (`upload_stocks` and `main`), price batches ≤ 900 in `main` and
≤ 1000 in `upload_prices`. -/
theorem claim_C4_batch_bounds :
    (∀ (ws : List Watch) (ids : List String) (res : Seller.UploadStocksResult),
      Seller.upload_stocks ws ids = some res → ∀ b ∈ res.batches, b.length ≤ 100) ∧
    (∀ (ws : List Watch) (ids : List String),
      ∀ b ∈ (Seller.upload_prices ws ids).1, b.length ≤ 1000) ∧
    (∀ (ws : List Watch) (ids : List String) (tr : Seller.MainTrace),
      Seller.main_sync ws ids = some tr →
      (∀ b ∈ tr.stockBatches, b.length ≤ 100) ∧
      (∀ b ∈ tr.priceBatches, b.length ≤ 900)) ∧
    (∀ (ws : List Watch) (ids : List String) (wh d : String)
        (res : Market.UploadStocksResult),
      Market.upload_stocks ws ids wh d = some res → ∀ b ∈ res.batches, b.length ≤ 2000) ∧
    (∀ (ws : List Watch) (ids : List String) (batches : List (List Market.PriceRec))
        (prices : List Market.PriceRec),
      Market.upload_prices ws ids = some (batches, prices) → ∀ b ∈ batches, b.length ≤ 500) ∧
    (∀ (ws : List Watch) (fids dids : List String) (c1 c2 w1 w2 d : String)
        (calls : List Market.Call),
      Market.main_calls ws fids dids c1 c2 w1 w2 d = some calls →
      ∀ b camp, Market.Call.putStocks b camp ∈ calls → b.length ≤ 2000) := by
  refine ⟨?_, ?_, ?_, ?_, ?_, ?_⟩
  · intro ws ids res h b hb
    unfold Seller.upload_stocks at h
    cases hc : Seller.create_stocks ws ids with
    | none => rw [hc] at h; exact Option.noConfusion h
    | some p =>
      obtain ⟨stocks, ids'⟩ := p
      rw [hc] at h
      simp only [Option.some.injEq] at h
      rw [← h] at hb
      exact (divide_mem_length stocks 100 (by omega) b hb).2
  · intro ws ids b hb
    exact (divide_mem_length (Seller.create_prices ws ids) 1000 (by omega) b hb).2
  · intro ws ids tr h
    unfold Seller.main_sync at h
    cases hc : Seller.create_stocks ws ids with
    | none => rw [hc] at h; exact Option.noConfusion h
    | some p =>
      obtain ⟨stocks, ids'⟩ := p
      rw [hc] at h
      simp only [Option.some.injEq] at h
      rw [← h]
      constructor
      · intro b hb
        exact (divide_mem_length stocks 100 (by omega) b hb).2
      · intro b hb
        exact (divide_mem_length (Seller.create_prices ws ids') 900 (by omega) b hb).2
  · intro ws ids wh d res h b hb
    unfold Market.upload_stocks at h
    cases hc : Market.create_stocks ws ids wh d with
    | none => rw [hc] at h; exact Option.noConfusion h
    | some p =>
      obtain ⟨stocks, ids'⟩ := p
      rw [hc] at h
      simp only [Option.some.injEq] at h
      rw [← h] at hb
      exact (divide_mem_length stocks 2000 (by omega) b hb).2
  · intro ws ids batches prices h b hb
    unfold Market.upload_prices at h
    cases hc : Market.create_prices ws ids with
    | none => rw [hc] at h; exact Option.noConfusion h
    | some ps =>
      rw [hc] at h
      simp only [Option.some.injEq, Prod.mk.injEq] at h
      rw [← h.1] at hb
      exact (divide_mem_length ps 500 (by omega) b hb).2
  · intro ws fids dids c1 c2 w1 w2 d calls h b camp hmem
    unfold Market.main_calls at h
    cases hc1 : Market.create_stocks ws fids w1 d with
    | none => rw [hc1] at h; exact Option.noConfusion h
    | some p1 =>
      obtain ⟨stocks1, ids1⟩ := p1
      rw [hc1] at h
      cases hc2 : Market.create_stocks ws dids w2 d with
      | none => rw [hc2] at h; exact Option.noConfusion h
      | some p2 =>
        obtain ⟨stocks2, ids2⟩ := p2
        rw [hc2] at h
        simp only [Option.some.injEq] at h
        rw [← h] at hmem
        rcases List.mem_append.mp hmem with hm | hm
        · obtain ⟨b', hb', heq⟩ := List.mem_map.mp hm
          injection heq with h1 h2
          rw [h1] at hb'
          exact (divide_mem_length stocks1 2000 (by omega) b hb').2
        · obtain ⟨b', hb', heq⟩ := List.mem_map.mp hm
          injection heq with h1 h2
          rw [h1] at hb'
          exact (divide_mem_length stocks2 2000 (by omega) b hb').2

/-- Witness for C4 at a concrete input: a one-record stock upload goes
out in a single batch of length 1 ≤ 100. -/
theorem claim_C4_witness :
    ([{ offer_id := "a", stock := 0 }] : List Seller.StockRec).length ≤ 100 :=
  claim_C4_batch_bounds.1 [{ kod := "a", kolichestvo := "1", tsena := "x" }] ["a"]
    { batches := [[{ offer_id := "a", stock := 0 }]], not_empty := [],
      stocks := [{ offer_id := "a", stock := 0 }] }
    (by simp [Seller.upload_stocks, Seller.create_stocks, Seller.stocksLoop, stockOfCount, divide])
    [{ offer_id := "a", stock := 0 }] (by decide)

/-- C6: `upload_stocks` (both marketplaces) returns a pair whose first
component is exactly the in-order sublist of the built stock records with
non-zero count, and whose second component is the full built list. -/
theorem claim_C6_not_empty_filter :
    (∀ (ws : List Watch) (ids : List String) (res : Seller.UploadStocksResult),
      Seller.upload_stocks ws ids = some res →
      res.not_empty = res.stocks.filter (fun r => r.stock ≠ 0) ∧
      res.not_empty.Sublist res.stocks ∧
      (∀ r ∈ res.not_empty, r.stock ≠ 0) ∧
      (∀ r ∈ res.stocks, r.stock ≠ 0 → r ∈ res.not_empty) ∧
      (∃ ids', Seller.create_stocks ws ids = some (res.stocks, ids'))) ∧
    (∀ (ws : List Watch) (ids : List String) (wh d : String)
        (res : Market.UploadStocksResult),
      Market.upload_stocks ws ids wh d = some res →
      res.not_empty = res.stocks.filter (fun r =>
        (r.items.headD { count := 0, type := "", updatedAt := "" }).count ≠ 0) ∧
      res.not_empty.Sublist res.stocks ∧
      (∀ r ∈ res.not_empty, (r.items.headD { count := 0, type := "", updatedAt := "" }).count ≠ 0) ∧
      (∀ r ∈ res.stocks, (r.items.headD { count := 0, type := "", updatedAt := "" }).count ≠ 0 →
        r ∈ res.not_empty) ∧
      (∃ ids', Market.create_stocks ws ids wh d = some (res.stocks, ids'))) := by
  constructor
  · intro ws ids res h
    unfold Seller.upload_stocks at h
    cases hc : Seller.create_stocks ws ids with
    | none => rw [hc] at h; exact Option.noConfusion h
    | some p =>
      obtain ⟨stocks, ids'⟩ := p
      rw [hc] at h
      simp only [Option.some.injEq] at h
      rw [← h]
      refine ⟨rfl, List.filter_sublist stocks, ?_, ?_, ?_⟩
      · intro r hr
        have := List.mem_filter.mp hr
        simpa using this.2
      · intro r hr hnz
        exact List.mem_filter.mpr ⟨hr, by simpa using hnz⟩
      · exact ⟨ids', rfl⟩
  · intro ws ids wh d res h
    unfold Market.upload_stocks at h
    cases hc : Market.create_stocks ws ids wh d with
    | none => rw [hc] at h; exact Option.noConfusion h
    | some p =>
      obtain ⟨stocks, ids'⟩ := p
      rw [hc] at h
      simp only [Option.some.injEq] at h
      rw [← h]
      refine ⟨rfl, List.filter_sublist stocks, ?_, ?_, ?_⟩
      · intro r hr
        have := List.mem_filter.mp hr
        simpa using this.2
      · intro r hr hnz
        exact List.mem_filter.mpr ⟨hr, by simpa using hnz⟩
      · exact ⟨ids', rfl⟩

/-- Witness for C6 at a concrete input: a feed with one matched non-zero
row and one zero-filled id — the non-zero record is exactly the first
component. -/
theorem claim_C6_witness :
    ([({ offer_id := "a", stock := 100 } : Seller.StockRec)]).Sublist
      [({ offer_id := "a", stock := 100 } : Seller.StockRec), { offer_id := "b", stock := 0 }] := by
  have h := claim_C6_not_empty_filter.1 [{ kod := "a", kolichestvo := ">10", tsena := "x" }]
    ["a", "b"]
    { batches := [[{ offer_id := "a", stock := 100 }, { offer_id := "b", stock := 0 }]],
      not_empty := [{ offer_id := "a", stock := 100 }],
      stocks := [{ offer_id := "a", stock := 100 }, { offer_id := "b", stock := 0 }] }
    (by simp [Seller.upload_stocks, Seller.create_stocks, Seller.stocksLoop, stockOfCount, divide])
  exact h.2.1
/-- C7: seller.py `get_offer_ids` pages through the product list with the
`last_id` cursor, accumulating each page's items, and stops exactly at
the first iteration where the reported total equals the number of
accumulated items; when that condition is first reached at iteration `N`
and the fuel bound exceeds `N`, the loop terminates and returns the
`offer_id` of every accumulated product. -/
theorem claim_C7_pagination (f : String → Seller.Page) (N : Nat)
    (hmin : ∀ k, k < N → ¬ Seller.stopsAt f k) (hstop : Seller.stopsAt f N) :
    ∀ fuel, N < fuel →
      Seller.get_offer_ids f fuel =
        some ((Seller.accAt f (N + 1)).map (fun p => p.offer_id)) ∧
      (f (Seller.cursorAt f N)).total = (Seller.accAt f (N + 1)).length := by
  intro fuel hfuel
  refine ⟨?_, hstop⟩
  unfold Seller.get_offer_ids
  have h := Seller.offersLoop_reaches f N hmin hstop fuel 0 (Nat.zero_le N) (by omega)
  rw [show Seller.cursorAt f 0 = "" from rfl, show Seller.accAt f 0 = [] from rfl] at h
  rw [h]
  rfl

/-- Witness for C7 at a concrete page source: two pages of one product
each reporting `total = 2`; the stopping condition first holds at
iteration 1, and the loop returns both offer ids. -/
theorem claim_C7_witness :
    Seller.get_offer_ids
      (fun c => if c = "" then { items := [{ offer_id := "A" }], total := 2, last_id := "p2" }
                else { items := [{ offer_id := "B" }], total := 2, last_id := "" }) 2 =
      some ["A", "B"] := by
  have h := claim_C7_pagination
    (fun c => if c = "" then { items := [{ offer_id := "A" }], total := 2, last_id := "p2" }
              else { items := [{ offer_id := "B" }], total := 2, last_id := "" })
    1
    (by
      intro k hk
      have hk0 : k = 0 := by omega
      subst hk0
      unfold Seller.stopsAt
      decide)
    (by
      unfold Seller.stopsAt
      decide)
    2 (by omega)
  rw [h.1]
  decide

/-- C8 counterexample: in market.py `main`, `download_stock()` (line 455)
runs before the try block, so a connection failure raised during the feed
download — part of the synchronization work — propagates out of `main`
instead of being caught, reported and followed by a normal return. -/
theorem claim_C8_counterexample :
    Market.main_result (Except.error (PyExc.connectionError "connection refused"))
      (Except.ok ()) =
      Except.error (PyExc.connectionError "connection refused") := rfl

/-- C8 (amended): in seller.py every exception raised during the
synchronization work (feed download included) is caught by one of the
three handlers, reported as a message, and `main` returns normally; in
market.py the same holds for the work inside the try block, but an
exception raised by the feed download — which precedes the try block —
propagates out of `main`. -/
theorem claim_C8_error_handling :
    (∀ work : Except PyExc Unit, ∃ msgs, Seller.main_result work = Except.ok msgs) ∧
    (Seller.main_result (Except.error PyExc.readTimeout) =
      Except.ok ["Превышено время ожидания..."]) ∧
    (∀ m, Seller.main_result (Except.error (PyExc.connectionError m)) =
      Except.ok [m ++ " Ошибка соединения"]) ∧
    (∀ m, Seller.main_result (Except.error (PyExc.other m)) = Except.ok [m ++ " ERROR_2"]) ∧
    (∀ work : Except PyExc Unit, ∃ msgs, Market.main_result (Except.ok ()) work = Except.ok msgs) ∧
    (∀ e : PyExc, Market.main_result (Except.error e) (Except.ok ()) = Except.error e) := by
  refine ⟨?_, rfl, fun m => rfl, fun m => rfl, ?_, fun e => ?_⟩
  · intro work
    match work with
    | .ok _ => exact ⟨[], rfl⟩
    | .error .readTimeout => exact ⟨_, rfl⟩
    | .error (.connectionError m) => exact ⟨_, rfl⟩
    | .error (.other m) => exact ⟨_, rfl⟩
  · intro work
    match work with
    | .ok _ => exact ⟨[], rfl⟩
    | .error .readTimeout => exact ⟨_, rfl⟩
    | .error (.connectionError m) => exact ⟨_, rfl⟩
    | .error (.other m) => exact ⟨_, rfl⟩
  · cases e <;> rfl
/-- C9: `create_stocks` (both marketplaces) leaves in the caller's
`offer_ids` list exactly the ids for which a zero-filled record was
emitted: the output splits into the matched records followed by one
`0`-count record per remaining id, the final list is a sublist of the
initial one, on a duplicate-free offer list an id remains exactly when no
matched record was emitted for it, and seller.py `main` passes the
mutated list to its later `create_prices` call. -/
theorem claim_C9_mutation :
    (∀ (ws : List Watch) (ids : List String) (recs : List Seller.StockRec) (ids' : List String),
      Seller.create_stocks ws ids = some (recs, ids') →
      ∃ matched, Seller.stocksLoop ws ids = some (matched, ids') ∧
        recs = matched ++ ids'.map (fun i => { offer_id := i, stock := 0 }) ∧
        ids'.Sublist ids ∧
        (ids.Nodup → ∀ id ∈ ids, (id ∈ ids' ↔ ∀ r ∈ matched, r.offer_id ≠ id))) ∧
    (∀ (ws : List Watch) (ids : List String) (wh d : String)
        (recs : List Market.StockRec) (ids' : List String),
      Market.create_stocks ws ids wh d = some (recs, ids') →
      ∃ matched, Market.stocksLoop wh d ws ids = some (matched, ids') ∧
        recs = matched ++ ids'.map (fun i =>
          { sku := i, warehouseId := wh,
            items := [{ count := 0, type := "FIT", updatedAt := d }] }) ∧
        ids'.Sublist ids ∧
        (ids.Nodup → ∀ id ∈ ids, (id ∈ ids' ↔ ∀ r ∈ matched, r.sku ≠ id))) ∧
    (∀ (ws : List Watch) (ids : List String) (tr : Seller.MainTrace),
      Seller.main_sync ws ids = some tr →
      ∃ stocks, Seller.create_stocks ws ids = some (stocks, tr.idsAfterStocks) ∧
        tr.prices = Seller.create_prices ws tr.idsAfterStocks) := by
  refine ⟨?_, ?_, ?_⟩
  · intro ws ids recs ids' h
    unfold Seller.create_stocks at h
    cases hl : Seller.stocksLoop ws ids with
    | none => rw [hl] at h; exact Option.noConfusion h
    | some p =>
      obtain ⟨recs0, ids0⟩ := p
      rw [hl] at h
      simp only [Option.some.injEq, Prod.mk.injEq] at h
      obtain ⟨hrecs, hids⟩ := h
      subst hids
      refine ⟨recs0, rfl, hrecs.symm, Seller.stocksLoop_sublist ws ids recs0 ids0 hl, ?_⟩
      intro hnd id hid
      exact Seller.stocksLoop_nodup_iff ws ids recs0 ids0 hl hnd id hid
  · intro ws ids wh d recs ids' h
    unfold Market.create_stocks at h
    cases hl : Market.stocksLoop wh d ws ids with
    | none => rw [hl] at h; exact Option.noConfusion h
    | some p =>
      obtain ⟨recs0, ids0⟩ := p
      rw [hl] at h
      simp only [Option.some.injEq, Prod.mk.injEq] at h
      obtain ⟨hrecs, hids⟩ := h
      subst hids
      refine ⟨recs0, rfl, hrecs.symm, Market.stocksLoop_sublist_m wh d ws ids recs0 ids0 hl, ?_⟩
      intro hnd id hid
      exact Market.stocksLoop_nodup_iff_m wh d ws ids recs0 ids0 hl hnd id hid
  · intro ws ids tr h
    unfold Seller.main_sync at h
    cases hc : Seller.create_stocks ws ids with
    | none => rw [hc] at h; exact Option.noConfusion h
    | some p =>
      obtain ⟨stocks, ids'⟩ := p
      rw [hc] at h
      simp only [Option.some.injEq] at h
      rw [← h]
      exact ⟨stocks, rfl, rfl⟩

/-- Witness for C9 at a concrete input: matching the single row "123"
against the duplicate-free list ["123", "789"] leaves exactly ["789"],
a sublist of the original, and "123" no longer belongs to it. -/
theorem claim_C9_witness :
    (["789"] : List String).Sublist ["123", "789"] ∧ ("123" : String) ∉ (["789"] : List String) := by
  obtain ⟨matched, hloop, hsplit, hsub, hiff⟩ := claim_C9_mutation.1
    [{ kod := "123", kolichestvo := ">10", tsena := "x" }] ["123", "789"]
    [{ offer_id := "123", stock := 100 }, { offer_id := "789", stock := 0 }] ["789"]
    (by simp [Seller.create_stocks, Seller.stocksLoop, stockOfCount])
  have hm : matched = [{ offer_id := "123", stock := 100 }] := by
    simp [Seller.stocksLoop, stockOfCount] at hloop
    exact hloop.symm
  refine ⟨hsub, ?_⟩
  intro hmem
  have h2 := (hiff (by decide) "123" (by decide)).mp hmem
  rw [hm] at h2
  exact h2 { offer_id := "123", stock := 100 } (by decide) rfl

/-- C10: a run of market.py `main` never issues a price-update request:
`upload_prices` is an async function called without `await` at lines 464
and 473, so its coroutine body never runs, and every call in the trace of
`main` is a stock update (`update_price` is never invoked from `main`). -/
theorem claim_C10_no_price_update :
    ∀ (ws : List Watch) (fids dids : List String) (c1 c2 w1 w2 d : String)
      (calls : List Market.Call),
      Market.main_calls ws fids dids c1 c2 w1 w2 d = some calls →
      (∀ c ∈ calls, ¬ c.isPriceUpdate) ∧
      (∀ c ∈ calls, ∃ b camp, c = Market.Call.putStocks b camp) := by
  intro ws fids dids c1 c2 w1 w2 d calls h
  unfold Market.main_calls at h
  cases hc1 : Market.create_stocks ws fids w1 d with
  | none => rw [hc1] at h; exact Option.noConfusion h
  | some p1 =>
    obtain ⟨s1, i1⟩ := p1
    rw [hc1] at h
    cases hc2 : Market.create_stocks ws dids w2 d with
    | none => rw [hc2] at h; exact Option.noConfusion h
    | some p2 =>
      obtain ⟨s2, i2⟩ := p2
      rw [hc2] at h
      simp only [Option.some.injEq] at h
      rw [← h]
      constructor
      · intro c hc
        rcases List.mem_append.mp hc with hm | hm <;>
        · obtain ⟨b, hb, heq⟩ := List.mem_map.mp hm
          rw [← heq]
          simp [Market.Call.isPriceUpdate]
      · intro c hc
        rcases List.mem_append.mp hc with hm | hm
        · obtain ⟨b, hb, heq⟩ := List.mem_map.mp hm
          exact ⟨b, c1, heq.symm⟩
        · obtain ⟨b, hb, heq⟩ := List.mem_map.mp hm
          exact ⟨b, c2, heq.symm⟩

/-- Witness for C10 at a concrete input: a one-row feed synchronized for
an FBS campaign with one offer id and an empty DBS campaign produces a
single stock-update call and nothing else. -/
theorem claim_C10_witness :
    ¬ (Market.Call.putStocks
        [{ sku := "a", warehouseId := "w1",
           items := [{ count := 0, type := "FIT", updatedAt := "D" }] }] "c1").isPriceUpdate := by
  have h := claim_C10_no_price_update [{ kod := "a", kolichestvo := "1", tsena := "x" }]
    ["a"] [] "c1" "c2" "w1" "w2" "D"
    [Market.Call.putStocks
      [{ sku := "a", warehouseId := "w1",
         items := [{ count := 0, type := "FIT", updatedAt := "D" }] }] "c1"]
    (by simp [Market.main_calls, Market.create_stocks, Market.stocksLoop, stockOfCount, divide])
  exact h.1 _ (List.mem_singleton.mpr rfl)
